import Mathlib

/-!
Verification of the daily commit summarizer (scripts/daily-summary.ts).

Strings of the script are modelled as lists of characters (JS strings are
sequences of code units; all operations used by the script, namely length,
concatenation, slice, trim and split, are sequence operations, so a list
model is faithful).  External effects are modelled as oracles:

* the output of each git listing command is an input of the model
  (per-branch logs, the union log, titles, authors, diffs);
* the text-generation HTTP call is an oracle indexed by the position of the
  call in the fully sequential call order; a value of the error channel
  stands for the string rendering of the thrown error.

Definitions follow the TypeScript source line by line; the few definitions
that instead follow the wording of the specification are marked as such.
-/

namespace DailySummary

/-- A JS string, modelled as its sequence of characters. -/
abbrev Str := List Char

/-- The two-newline separator used by the chunker when joining file parts
into an accumulating buffer (the template string of line 228). -/
def sepNN : Str := ['\n', '\n']

/-- Joining a list of strings with a separator; mirrors the semantics of
joining the parts that the chunker accumulates into one buffer. -/
def strIntercalate (sep : Str) : List Str → Str
  | [] => []
  | [x] => x
  | x :: y :: ys => x ++ sep ++ strIntercalate sep (y :: ys)

/-- Consecutive fixed-size slices of a string: the loop
for (let i = 0; i < p.length; i += limit) out.push(p.slice(i, i + limit))
of chunkBySize (lines 232-234).  The JS loop does not terminate when
limit = 0; the model is only used with 0 < limit. -/
def sliceBy (p : Str) (limit : Nat) : List Str :=
  if p = [] ∨ limit = 0 then []
  else p.take limit :: sliceBy (p.drop limit) limit
termination_by p.length
decreasing_by
  rename_i h
  push_neg at h
  have hp : 0 < p.length := List.length_pos.mpr h.1
  have hl : 0 < limit := Nat.pos_of_ne_zero h.2
  simp only [List.length_drop]
  omega

/-- Worker of chunkBySize (lines 224-245): buf is the accumulator string,
the list argument is the remaining file parts. -/
def chunkBySizeAux (limit : Nat) : Str → List Str → List Str
  | buf, [] => if buf = [] then [] else [buf]
  | buf, p :: ps =>
    if limit < (if buf = [] then p else buf ++ sepNN ++ p).length then
      (if buf = [] then [] else [buf]) ++
      (if limit < p.length then sliceBy p limit ++ chunkBySizeAux limit [] ps
       else chunkBySizeAux limit p ps)
    else chunkBySizeAux limit (if buf = [] then p else buf ++ sepNN ++ p) ps

/-- chunkBySize(parts, limit) of lines 224-245. -/
def chunkBySize (parts : List Str) (limit : Nat) : List Str :=
  chunkBySizeAux limit [] parts

/-- Shape of one emitted chunk: either the flush of a buffer holding a run
of consecutive whole file units, or the run of forced fixed-size slices of
one oversized unit. -/
inductive ChunkTag where
  | grp : List Str → ChunkTag
  | sliced : Str → ChunkTag

/-- The chunk strings denoted by one tag: a buffer flush is the unit run
joined with the two-newline separator; an oversized unit contributes its
consecutive slices. -/
def renderTag (limit : Nat) : ChunkTag → List Str
  | .grp g => [strIntercalate sepNN g]
  | .sliced p => sliceBy p limit

/-- The original file units underlying one tag. -/
def tagUnits : ChunkTag → List Str
  | .grp g => g
  | .sliced p => [p]

/-- Instrumented twin of chunkBySizeAux: same branch conditions, but the
buffer is kept as the list of units it holds and the output records which
units went into each chunk. -/
def chunkTagsAux (limit : Nat) : List Str → List Str → List ChunkTag
  | bufg, [] => if bufg = [] then [] else [ChunkTag.grp bufg]
  | bufg, p :: ps =>
    if limit < (if strIntercalate sepNN bufg = [] then p
                else strIntercalate sepNN bufg ++ sepNN ++ p).length then
      (if bufg = [] then [] else [ChunkTag.grp bufg]) ++
      (if limit < p.length then ChunkTag.sliced p :: chunkTagsAux limit [] ps
       else chunkTagsAux limit [p] ps)
    else chunkTagsAux limit (bufg ++ [p]) ps

/-- Tagged decomposition of chunkBySize(parts, limit). -/
def chunkTags (parts : List Str) (limit : Nat) : List ChunkTag :=
  chunkTagsAux limit [] parts

/-- Splitting a list at the elements satisfying a predicate, dropping the
matching elements, keeping empty segments: the semantics of
String.prototype.split against a full-match regex. -/
def splitSegs (p : α → Bool) : List α → List (List α)
  | [] => [[]]
  | a :: as =>
    match splitSegs p as with
    | [] => if p a then [[], []] else [[a]]
    | g :: gs => if p a then [] :: g :: gs else (a :: g) :: gs

/-- The lines of a string (segments between newline characters). -/
def toLines (s : Str) : List Str := splitSegs (fun c => c == '\n') s

/-- The file-boundary marker of the splitting regex of line 220. -/
def markerStr : Str := "diff --git".toList

/-- Whether a line fully matches the file-boundary regex, that is, begins
with the marker (the regex is the marker followed by .* up to end of
line). -/
def isMarkerLine (l : Str) : Bool := l.take markerStr.length == markerStr

/-- JS whitespace as far as the script encounters it (String.prototype.trim
strips all Unicode whitespace; the characters that can occur around a git
patch are these four). -/
def isWsChar (c : Char) : Bool :=
  c == ' ' || c == '\t' || c == '\n' || c == '\r'

/-- String.prototype.trim: strip leading and trailing whitespace. -/
def trim (s : Str) : Str :=
  ((s.dropWhile isWsChar).reverse.dropWhile isWsChar).reverse

/-- splitPatchByFile(patch) of lines 218-222: split on lines matching
diff --git (the regex split is performed here line-wise, which agrees with
the regex split after the trim), trim every part and keep the non-empty
ones; the empty patch yields no parts (the falsy check of line 219). -/
def splitPatchByFile (patch : Str) : List Str :=
  if patch = [] then []
  else
    (((splitSegs isMarkerLine (toLines patch)).map
        (fun seg => trim (strIntercalate ['\n'] seg)))).filter
      (fun u => !u.isEmpty)

/-- Array.prototype.slice(-n): the last n elements.  For n = 0 the argument
-0 is the integer 0, so JS returns the whole array; for positive n the
start index is clamped at 0, giving the last min(n, length) elements. -/
def jsSliceLast {α : Type} (l : List α) (n : Nat) : List α :=
  if n = 0 then l else l.drop (l.length - n)

/-- branchToCommits (lines 130-141): for every tracked remote branch, the
in-window non-merge hashes of that branch (oldest-first, an input of the
model) truncated with slice(-PER_BRANCH_LIMIT).  Kept as an association
list in branch order (JS Map preserves insertion order). -/
def branchToCommits (branches : List Str) (log : Str → List Str) (cap : Nat) :
    List (Str × List Str) :=
  branches.map (fun rb => (rb, jsSliceLast (log rb) cap))

/-- shaToBranches (lines 144-150) read back at one hash: the branches whose
retained commit list contains the hash, in branch order (JS Set preserves
insertion order). -/
def shaToBranchesL (btc : List (Str × List Str)) (sha : Str) : List Str :=
  (btc.filter (fun e => decide (sha ∈ e.2))).map Prod.fst

/-- Worker of the global filter of lines 161-167: seen is the set of
already retained hashes. -/
def commitShasGo (btc : List (Str × List Str)) : List Str → List Str → List Str
  | _, [] => []
  | seen, s :: rest =>
    if s ∈ seen then commitShasGo btc seen rest
    else if shaToBranchesL btc s = [] then commitShasGo btc seen rest
    else s :: commitShasGo btc (s :: seen) rest

/-- commitShas (lines 161-167): the union listing (oldest-first, an input
of the model) filtered to hashes present in the reverse index, keeping the
first occurrence of each hash. -/
def commitShas (all : List Str) (btc : List (Str × List Str)) : List Str :=
  commitShasGo btc [] all

/-- Modelled from the spec: the subsequence of a listing obtained by
keeping the first occurrence of each element; used to compare commitShas
with the wording of the order invariant. -/
def specFirstOccGo : List Str → List Str → List Str
  | _, [] => []
  | seen, s :: rest =>
    if s ∈ seen then specFirstOccGo seen rest
    else s :: specFirstOccGo (s :: seen) rest

/-- Modelled from the spec: first-occurrence deduplication of a listing. -/
def specFirstOcc (l : List Str) : List Str := specFirstOccGo [] l

/-- Lexicographic comparison of strings by code unit, the default
Array.prototype.sort comparator used on branch names at line 182. -/
def ltStr : Str → Str → Bool
  | [], [] => false
  | [], _ :: _ => true
  | _ :: _, [] => false
  | a :: as, b :: bs => if a < b then true else if b < a then false else ltStr as bs

/-- Insertion into a sorted list, for modelling Array.prototype.sort. -/
def insertStr (x : Str) : List Str → List Str
  | [] => [x]
  | y :: ys => if ltStr x y then x :: y :: ys else y :: insertStr x ys

/-- Array.prototype.sort with the default comparator (insertion sort; the
sorted result is what line 182 attaches to the commit record). -/
def sortStr : List Str → List Str
  | [] => []
  | x :: xs => insertStr x (sortStr xs)

/-- The CommitMeta record of lines 122-128. -/
structure CommitMeta where
  sha : Str
  title : Str
  author : Str
  url : Str
  branches : List Str
deriving DecidableEq

/-- The fixed server of line 174. -/
def serverUrl : Str := "https://github.com".toList

/-- The commit URL template of lines 179-181. -/
def commitUrl (repo sha : Str) : Str :=
  if repo = [] then serverUrl ++ "/commit/".toList ++ sha
  else serverUrl ++ ['/'] ++ repo ++ "/commit/".toList ++ sha

/-- commitMetas (lines 176-184): one record per retained hash, carrying
title and author (inputs of the model), the synthesized URL and the sorted
branch set of the reverse index. -/
def commitMetas (all : List Str) (btc : List (Str × List Str))
    (title author : Str → Str) (repo : Str) : List CommitMeta :=
  (commitShas all btc).map (fun sha =>
    { sha := sha
      title := title sha
      author := author sha
      url := commitUrl repo sha
      branches := sortStr (shaToBranchesL btc sha) })

/-- Decimal rendering of a number interpolated into a template string. -/
def natChars (n : Nat) : Str := (Nat.repr n).toList

/-- The placeholder summary recorded for a commit whose diff is empty or
entirely filtered (line 425). -/
def emptyDiffNote : Str :=
  "（无有效业务改动或改动已被过滤，例如 lockfile/构建产物/二进制，或空提交）".toList

/-- The placeholder pushed when a chunk generation call succeeds with an
empty string (line 438); i is the 1-based chunk number. -/
def emptyPartNote (i : Nat) : Str :=
  "（片段".toList ++ natChars i ++ "摘要为空）".toList

/-- The placeholder pushed when a chunk generation call throws (line 440);
i is the 1-based chunk number and e the string rendering of the error. -/
def failPartNote (i : Nat) (e : Str) : Str :=
  "（片段".toList ++ natChars i ++ "调用失败：".toList ++ e ++ "）".toList

/-- The failure notice opening the manually assembled daily fallback
(line 468). -/
def dailyFailMark : Str :=
  "（当日汇总失败，以下为逐提交原始小结拼接）".toList

/-- The notification keyword prepended to the delivered text (line 478). -/
def larkKeyword : Str := "【每日代码提交摘要】".toList

/-- The separator between per-commit items of the daily fallback
(line 474). -/
def dailySepStr : Str := "\n\n---\n\n".toList

/-- The final message handed to the notification webhook (line 479). -/
def finalMessage (daily : Str) : Str := larkKeyword ++ ['\n', '\n'] ++ daily

/-- The chunk-summary accumulation loop of lines 433-442.  gen is the
call-indexed generation oracle (ok carries the trimmed response content,
error the rendering of the thrown error), k the index of the next call and
i the 1-based number of the next chunk.  A falsy (empty) success is
replaced by the empty-result placeholder, a thrown call by the failure
placeholder. -/
def partSummaries (gen : Nat → Except Str Str) : Nat → Nat → List Str → List Str
  | _, _, [] => []
  | k, i, _ :: cs =>
    (match gen k with
     | .ok s => if s = [] then emptyPartNote i else s
     | .error e => failPartNote i e) :: partSummaries gen (k + 1) (i + 1) cs

/-- Processing of one commit in the main loop (lines 419-452): an empty or
whitespace-only diff records the placeholder and makes no generation call;
otherwise the diff is split and packed, each chunk summarized with one
call, and one merge call produces the commit summary, falling back to the
joined chunk summaries when the merge call throws.  Returns the summary
and the next call index. -/
def processCommit (gen : Nat → Except Str Str) (limit k : Nat)
    (patch : Str) : Str × Nat :=
  if trim patch = [] then (emptyDiffNote, k)
  else
    let chunks := chunkBySize (splitPatchByFile patch) limit
    match gen (k + chunks.length) with
    | .ok s => (s, k + chunks.length + 1)
    | .error _ =>
      (strIntercalate sepNN (partSummaries gen k 1 chunks), k + chunks.length + 1)

/-- The sequential main loop over all commit records (lines 417-453),
threading the call index; produces perCommitFinal and the index of the
daily merge call. -/
def runCommits (gen : Nat → Except Str Str) (limit : Nat) (diffOf : Str → Str) :
    List CommitMeta → Nat → List (CommitMeta × Str) × Nat
  | [], k => ([], k)
  | m :: ms, k =>
    let r := processCommit gen limit k (diffOf m.sha)
    let rest := runCommits gen limit diffOf ms r.2
    ((m, r.1) :: rest.1, rest.2)

/-- One item of the manually assembled daily fallback (lines 470-473). -/
def fallbackItem (it : CommitMeta × Str) : Str :=
  "[".toList ++ it.1.sha.take 7 ++ "] ".toList ++ it.1.title
    ++ " — ".toList ++ strIntercalate (", ".toList) it.1.branches
    ++ ['\n'] ++ it.2

/-- The daily digest (lines 461-475): one merge call at index k; on a
thrown call, the failure notice followed by the joined per-commit items. -/
def dailyText (gen : Nat → Except Str Str) (k : Nat)
    (pcf : List (CommitMeta × Str)) : Str :=
  match gen k with
  | .ok s => s
  | .error _ =>
    dailyFailMark ++ ['\n', '\n'] ++ strIntercalate dailySepStr (pcf.map fallbackItem)

/-- The git-facing inputs of one run: tracked remote branches, the
per-branch window listing, the union window listing, and the per-hash
title, author and diff lookups. -/
structure GitEnv where
  branches : List Str
  log : Str → List Str
  allShas : List Str
  title : Str → Str
  author : Str → Str
  diff : Str → Str

/-- The configuration surface the pipeline consumes. -/
structure Config where
  cap : Nat
  limit : Nat
  repo : Str

/-- Observable outcome of one run: the exit code and the text handed to
the notification collaborator, if any. -/
structure RunOutcome where
  exitCode : Nat
  notification : Option Str
deriving DecidableEq

/-- The branch index of one run. -/
def pipeBtc (env : GitEnv) (cfg : Config) : List (Str × List Str) :=
  branchToCommits env.branches env.log cfg.cap

/-- The final reporting set of one run. -/
def pipeShas (env : GitEnv) (cfg : Config) : List Str :=
  commitShas env.allShas (pipeBtc env cfg)

/-- The commit records of one run. -/
def pipeMetas (env : GitEnv) (cfg : Config) : List CommitMeta :=
  commitMetas env.allShas (pipeBtc env cfg) env.title env.author cfg.repo

/-- perCommitFinal together with the index of the daily merge call. -/
def pipeRun (env : GitEnv) (cfg : Config) (gen : Nat → Except Str Str) :
    List (CommitMeta × Str) × Nat :=
  runCommits gen cfg.limit env.diff (pipeMetas env cfg) 0

/-- perCommitFinal of one run. -/
def pipePCF (env : GitEnv) (cfg : Config) (gen : Nat → Except Str Str) :
    List (CommitMeta × Str) :=
  (pipeRun env cfg gen).1

/-- The call index of the daily merge call of one run. -/
def pipeDailyIdx (env : GitEnv) (cfg : Config) (gen : Nat → Except Str Str) : Nat :=
  (pipeRun env cfg gen).2

/-- The final message of one non-empty run. -/
def pipeMsg (env : GitEnv) (cfg : Config) (gen : Nat → Except Str Str) : Str :=
  finalMessage (dailyText gen (pipeDailyIdx env cfg gen) (pipePCF env cfg gen))

/-- The whole run (lines 169-172 and 416-488): an empty reporting set exits
successfully before any report or notification; otherwise the digest is
produced and handed to the notification collaborator. -/
def pipeline (env : GitEnv) (cfg : Config) (gen : Nat → Except Str Str) :
    RunOutcome :=
  if pipeShas env cfg = [] then { exitCode := 0, notification := none }
  else { exitCode := 0, notification := some (pipeMsg env cfg gen) }

/-- An occurrence of one string inside another (substring containment). -/
def strContains (big small : Str) : Prop := ∃ l r, big = l ++ small ++ r

/-- Concrete two-branch scenario used to evaluate the collector: branches
d and m. -/
def c1Branches : List Str := [['d'], ['m']]

/-- Window listings of the concrete scenario: commit s1 is reachable from
both branches, s2 only from d. -/
def c1Log : Str → List Str :=
  fun rb => if rb = ['d'] then [['s', '1'], ['s', '2']] else [['s', '1']]

/-- Union window listing of the concrete scenario, oldest first. -/
def c1All : List Str := [['s', '1'], ['s', '2']]

/-- The commit record the collector produces for s1 in the concrete
scenario when the per-branch cap is 2 (no truncation). -/
def c1Meta : CommitMeta :=
  { sha := ['s', '1']
    title := []
    author := []
    url := commitUrl [] ['s', '1']
    branches := [['d'], ['m']] }

/-- Concrete one-branch, one-commit environment whose single commit has an
empty diff; used to evaluate the daily fallback. -/
def c7Env : GitEnv :=
  { branches := [['b']]
    log := fun _ => [['s']]
    allShas := [['s']]
    title := fun _ => []
    author := fun _ => []
    diff := fun _ => [] }

/-- Concrete configuration for the daily fallback evaluation. -/
def c7Cfg : Config := { cap := 200, limit := 10, repo := [] }

/-- A generation oracle whose every call throws. -/
def c7Gen : Nat → Except Str Str := fun _ => Except.error ['e']

theorem sliceBy_nil (limit : Nat) : sliceBy [] limit = [] := by
  rw [sliceBy]; simp

theorem sliceBy_join (limit : Nat) (hl : 0 < limit) :
    ∀ n (p : Str), p.length ≤ n → (sliceBy p limit).flatten = p := by
  intro n
  induction n with
  | zero =>
    intro p hp
    have : p = [] := List.eq_nil_of_length_eq_zero (Nat.le_zero.mp hp)
    subst this
    simp [sliceBy_nil]
  | succ n ih =>
    intro p hp
    by_cases hpn : p = []
    · subst hpn; simp [sliceBy_nil]
    · rw [sliceBy]
      have hcond : ¬(p = [] ∨ limit = 0) := by
        push_neg
        exact ⟨hpn, Nat.pos_iff_ne_zero.mp hl⟩
      simp only [hcond, if_false]
      have hdrop : (p.drop limit).length ≤ n := by
        have hp0 : 0 < p.length := List.length_pos.mpr hpn
        simp only [List.length_drop]
        omega
      rw [List.flatten_cons, ih (p.drop limit) hdrop, List.take_append_drop]

theorem sliceBy_length_le (limit : Nat) :
    ∀ n (p : Str), p.length ≤ n → ∀ s ∈ sliceBy p limit, s.length ≤ limit := by
  intro n
  induction n with
  | zero =>
    intro p hp s hs
    have : p = [] := List.eq_nil_of_length_eq_zero (Nat.le_zero.mp hp)
    subst this
    simp [sliceBy_nil] at hs
  | succ n ih =>
    intro p hp s hs
    by_cases hpn : p = []
    · subst hpn; simp [sliceBy_nil] at hs
    · by_cases hl0 : limit = 0
      · rw [sliceBy] at hs; simp [hl0] at hs
      · rw [sliceBy] at hs
        have hcond : ¬(p = [] ∨ limit = 0) := by push_neg; exact ⟨hpn, hl0⟩
        simp only [hcond, if_false, List.mem_cons] at hs
        rcases hs with h | h
        · subst h; simp
        · have hdrop : (p.drop limit).length ≤ n := by
            have hp0 : 0 < p.length := List.length_pos.mpr hpn
            have hl : 0 < limit := Nat.pos_of_ne_zero hl0
            simp only [List.length_drop]
            omega
          exact ih (p.drop limit) hdrop s h

theorem chunkBySizeAux_length_le (limit : Nat) :
    ∀ (parts : List Str) (buf : Str), buf.length ≤ limit →
      ∀ c ∈ chunkBySizeAux limit buf parts, c.length ≤ limit := by
  intro parts
  induction parts with
  | nil =>
    intro buf hbuf c hc
    simp only [chunkBySizeAux] at hc
    by_cases hb : buf = [] <;> simp [hb] at hc
    subst hc; exact hbuf
  | cons p ps ih =>
    intro buf hbuf c hc
    simp only [chunkBySizeAux] at hc
    by_cases hcand : limit < (if buf = [] then p else buf ++ sepNN ++ p).length
    · simp only [hcand, if_true, List.mem_append] at hc
      rcases hc with hc | hc
      · by_cases hb : buf = [] <;> simp [hb] at hc
        subst hc; exact hbuf
      · by_cases hp : limit < p.length
        · simp only [hp, if_true, List.mem_append] at hc
          rcases hc with hc | hc
          · exact sliceBy_length_le limit p.length p (le_refl _) c hc
          · exact ih [] (by simp) c hc
        · simp only [hp, if_false] at hc
          exact ih p (Nat.le_of_not_lt hp) c hc
    · simp only [hcand, if_false] at hc
      exact ih _ (Nat.le_of_not_lt hcand) c hc

/-- C2: for every list of file-patch units and every positive size limit,
every chunk emitted by chunkBySize has length at most the limit; in
particular each forced single-unit slice is itself within the limit.
(The JS loop does not terminate for limit = 0, so the limit of the claim
is a positive chunk size.) -/
theorem chunk_size_bound (parts : List Str) (limit : Nat) (_hl : 0 < limit) :
    ∀ c ∈ chunkBySize parts limit, c.length ≤ limit :=
  chunkBySizeAux_length_le limit parts [] (by simp)

/-- Witness for chunk_size_bound at a concrete input: packing the units
ab, cd with limit 3 emits the chunk cd, which is within the limit. -/
theorem chunk_size_bound_witness :
    ['c', 'd'] ∈ chunkBySize [['a', 'b'], ['c', 'd']] 3 ∧
      (['c', 'd'] : Str).length ≤ 3 :=
  ⟨by decide, chunk_size_bound [['a', 'b'], ['c', 'd']] 3 (by decide) ['c', 'd'] (by decide)⟩

theorem strIntercalate_ne_nil (sep : Str) (g : List Str)
    (hg : ∀ q ∈ g, q ≠ []) (hne : g ≠ []) : strIntercalate sep g ≠ [] := by
  match g with
  | [] => exact absurd rfl hne
  | [x] =>
    simp only [strIntercalate]
    exact hg x (by simp)
  | x :: y :: ys =>
    simp only [strIntercalate, ne_eq, List.append_eq_nil]
    intro h
    exact hg x (by simp) h.1.1

theorem strIntercalate_append_singleton (sep : Str) (p : Str) :
    ∀ g : List Str, g ≠ [] →
      strIntercalate sep (g ++ [p]) = strIntercalate sep g ++ sep ++ p := by
  intro g
  induction g with
  | nil => intro h; exact absurd rfl h
  | cons x xs ih =>
    intro _
    cases xs with
    | nil => simp [strIntercalate]
    | cons y ys =>
      have hih := ih (by simp)
      simp only [List.cons_append, strIntercalate, List.append_eq] at hih ⊢
      rw [hih]
      simp [List.append_assoc]

theorem chunkTagsAux_units (limit : Nat) :
    ∀ (parts bufg : List Str),
      ((chunkTagsAux limit bufg parts).map tagUnits).flatten = bufg ++ parts := by
  intro parts
  induction parts with
  | nil =>
    intro bufg
    by_cases hb : bufg = [] <;> simp [chunkTagsAux, hb, tagUnits]
  | cons p ps ih =>
    intro bufg
    simp only [chunkTagsAux]
    by_cases hcand :
        limit < (if strIntercalate sepNN bufg = [] then p
                 else strIntercalate sepNN bufg ++ sepNN ++ p).length
    · simp only [hcand, if_true]
      by_cases hp : limit < p.length
      · by_cases hb : bufg = [] <;>
          simp [hb, hp, tagUnits, ih]
      · by_cases hb : bufg = [] <;>
          simp [hb, hp, tagUnits, ih]
    · simp only [hcand, if_false, ih]
      simp

theorem chunkBySizeAux_eq_tags (limit : Nat) :
    ∀ (parts bufg : List Str), (∀ q ∈ bufg, q ≠ []) → (∀ q ∈ parts, q ≠ []) →
      chunkBySizeAux limit (strIntercalate sepNN bufg) parts
        = ((chunkTagsAux limit bufg parts).map (renderTag limit)).flatten := by
  intro parts
  induction parts with
  | nil =>
    intro bufg hb _
    by_cases hbe : bufg = []
    · subst hbe; simp [chunkBySizeAux, chunkTagsAux, strIntercalate]
    · have hBne := strIntercalate_ne_nil sepNN bufg hb hbe
      simp [chunkBySizeAux, chunkTagsAux, hbe, hBne, renderTag]
  | cons p ps ih =>
    intro bufg hb hp
    have hphead : p ≠ [] := hp p (by simp)
    have hptail : ∀ q ∈ ps, q ≠ [] := fun q hq => hp q (by simp [hq])
    simp only [chunkBySizeAux, chunkTagsAux]
    by_cases hcand :
        limit < (if strIntercalate sepNN bufg = [] then p
                 else strIntercalate sepNN bufg ++ sepNN ++ p).length
    · simp only [hcand, if_true, List.map_append, List.flatten_append]
      have hflush :
          (if strIntercalate sepNN bufg = [] then ([] : List Str)
           else [strIntercalate sepNN bufg])
            = ((if bufg = [] then ([] : List ChunkTag)
                else [ChunkTag.grp bufg]).map (renderTag limit)).flatten := by
        by_cases hbe : bufg = []
        · subst hbe; simp [strIntercalate]
        · have hBne := strIntercalate_ne_nil sepNN bufg hb hbe
          simp [hbe, hBne, renderTag]
      rw [hflush]
      by_cases hpl : limit < p.length
      · simp only [hpl, if_true, List.map_cons, List.flatten_cons, renderTag]
        have := ih [] (by simp) hptail
        simp only [strIntercalate] at this
        rw [this]
      · simp only [hpl, if_false]
        have := ih [p] (by simpa using hphead) hptail
        simp only [strIntercalate] at this
        rw [this]
    · simp only [hcand, if_false]
      have hbuf :
          (if strIntercalate sepNN bufg = [] then p
           else strIntercalate sepNN bufg ++ sepNN ++ p)
            = strIntercalate sepNN (bufg ++ [p]) := by
        by_cases hbe : bufg = []
        · subst hbe; simp [strIntercalate]
        · have hBne := strIntercalate_ne_nil sepNN bufg hb hbe
          simp [hBne, strIntercalate_append_singleton sepNN p bufg hbe]
      rw [hbuf]
      exact ih (bufg ++ [p])
        (by
          intro q hq
          rcases List.mem_append.mp hq with h | h
          · exact hb q h
          · simp at h; subst h; exact hphead)
        hptail

theorem splitPatchByFile_ne_nil (patch : Str) :
    ∀ u ∈ splitPatchByFile patch, u ≠ [] := by
  intro u hu
  simp only [splitPatchByFile] at hu
  by_cases hpe : patch = []
  · simp [hpe] at hu
  · simp only [hpe, if_false, List.mem_filter] at hu
    simpa using hu.2

/-- C3: for every patch and positive size limit, the chunks produced by
splitting the patch into file units and packing them decompose, in emission
order, into buffer flushes (runs of whole consecutive units joined with the
blank-line separator) and runs of forced slices of single oversized units;
the units underlying that decomposition, in order, are exactly the file
units of the original split.  So concatenating the chunks in emission order
reproduces the original file-unit sequence, the reconstruction being lossy
only at the removed file-boundary markers and at forced mid-file split
points. -/
theorem split_pack_order (patch : Str) (limit : Nat) (_hl : 0 < limit) :
    chunkBySize (splitPatchByFile patch) limit
        = ((chunkTags (splitPatchByFile patch) limit).map (renderTag limit)).flatten
      ∧ ((chunkTags (splitPatchByFile patch) limit).map tagUnits).flatten
        = splitPatchByFile patch := by
  constructor
  · have := chunkBySizeAux_eq_tags limit (splitPatchByFile patch) []
      (by simp) (splitPatchByFile_ne_nil patch)
    simpa [chunkBySize, chunkTags, strIntercalate] using this
  · simpa using chunkTagsAux_units limit (splitPatchByFile patch) []

/-- Witness for split_pack_order at the one-file patch x with limit 5. -/
theorem split_pack_order_witness :
    chunkBySize (splitPatchByFile ("x".toList)) 5
        = ((chunkTags (splitPatchByFile ("x".toList)) 5).map (renderTag 5)).flatten
      ∧ ((chunkTags (splitPatchByFile ("x".toList)) 5).map tagUnits).flatten
        = splitPatchByFile ("x".toList) :=
  split_pack_order ("x".toList) 5 (by decide)

theorem jsSliceLast_of_le {α : Type} (l : List α) (cap : Nat)
    (h : l.length ≤ cap) : jsSliceLast l cap = l := by
  unfold jsSliceLast
  by_cases hc : cap = 0
  · simp [hc]
  · simp [hc, Nat.sub_eq_zero_of_le h]

/-- C4, amended: for every branch and every positive per-branch cap, the
branch contributes at most cap commits to the reverse index, namely the
most recent min(cap, length) entries of its in-window listing, and the
retained entries are a suffix of the listing, so the oldest-first order is
preserved among the survivors.  (A configured cap of 0 is excluded: there
slice(-0) is slice(0) and the whole listing is kept, see branch_cap_cex.) -/
theorem branch_cap_bound (branches : List Str) (log : Str → List Str)
    (cap : Nat) (hc : 0 < cap) :
    ∀ e ∈ branchToCommits branches log cap,
      e.2.length ≤ cap
        ∧ e.2.length = min cap (log e.1).length
        ∧ (log e.1).take ((log e.1).length - cap) ++ e.2 = log e.1 := by
  intro e he
  rcases List.mem_map.mp he with ⟨rb, _, heq⟩
  subst heq
  have hc0 : cap ≠ 0 := Nat.pos_iff_ne_zero.mp hc
  refine ⟨?_, ?_, ?_⟩
  · simp only [jsSliceLast, hc0, if_false, List.length_drop]
    omega
  · simp only [jsSliceLast, hc0, if_false, List.length_drop]
    omega
  · simp only [jsSliceLast, hc0, if_false, List.take_append_drop]

/-- Counterexample to C4 as stated: with a configured per-branch cap of 0,
slice(-0) keeps the entire listing, so a branch with one in-window commit
contributes more than the cap. -/
theorem branch_cap_cex :
    ∃ e ∈ branchToCommits [['d']] (fun _ => [['a']]) 0,
      ¬ e.2.length ≤ 0 := by decide

/-- Witness for branch_cap_bound: branch d with listing a, b and cap 1
keeps exactly the most recent entry b. -/
theorem branch_cap_bound_witness :
    ([['b']] : List Str).length ≤ 1
      ∧ ([['b']] : List Str).length = min 1 ([['a'], ['b']] : List Str).length
      ∧ ([['a'], ['b']] : List Str).take
            (([['a'], ['b']] : List Str).length - 1) ++ [['b']]
          = [['a'], ['b']] :=
  branch_cap_bound [['d']] (fun _ => [['a'], ['b']]) 1 (by decide)
    (['d'], [['b']]) (by decide)

theorem commitShasGo_sublist (btc : List (Str × List Str)) :
    ∀ (l seen : List Str), List.Sublist (commitShasGo btc seen l) l := by
  intro l
  induction l with
  | nil => intro seen; simp [commitShasGo]
  | cons s rest ih =>
    intro seen
    simp only [commitShasGo]
    by_cases h1 : s ∈ seen
    · simp only [h1, if_true]
      exact List.Sublist.cons s (ih seen)
    · simp only [h1, if_false]
      by_cases h2 : shaToBranchesL btc s = []
      · simp only [h2, if_true]
        exact List.Sublist.cons s (ih seen)
      · simp only [h2, if_false]
        exact List.Sublist.cons₂ s (ih (s :: seen))

theorem commitShasGo_nodup (btc : List (Str × List Str)) :
    ∀ (l seen : List Str),
      (commitShasGo btc seen l).Nodup
        ∧ ∀ x ∈ commitShasGo btc seen l, x ∉ seen := by
  intro l
  induction l with
  | nil => intro seen; simp [commitShasGo]
  | cons s rest ih =>
    intro seen
    simp only [commitShasGo]
    by_cases h1 : s ∈ seen
    · simpa only [h1, if_true] using ih seen
    · simp only [h1, if_false]
      by_cases h2 : shaToBranchesL btc s = []
      · simpa only [h2, if_true] using ih seen
      · simp only [h2, if_false]
        constructor
        · rw [List.nodup_cons]
          refine ⟨fun hmem => ?_, (ih (s :: seen)).1⟩
          exact (ih (s :: seen)).2 s hmem (by simp)
        · intro x hx
          rcases List.mem_cons.mp hx with h | h
          · subst h; exact h1
          · intro hxs
            exact (ih (s :: seen)).2 x h (by simp [hxs])

theorem commitShasGo_spec (btc : List (Str × List Str)) :
    ∀ (l seen : List Str),
      commitShasGo btc seen l
        = specFirstOccGo seen
            (l.filter (fun s => !(shaToBranchesL btc s).isEmpty)) := by
  intro l
  induction l with
  | nil => intro seen; simp [commitShasGo, specFirstOccGo]
  | cons s rest ih =>
    intro seen
    simp only [commitShasGo, List.filter_cons]
    by_cases h2 : shaToBranchesL btc s = []
    · have hf : (!(shaToBranchesL btc s).isEmpty) = false := by
        simp [h2]
      simp only [hf, if_false, Bool.false_eq_true]
      by_cases h1 : s ∈ seen <;> simp [h1, h2, ih]
    · have hf : (!(shaToBranchesL btc s).isEmpty) = true := by
        simp [List.isEmpty_iff, h2]
      simp only [hf, if_true]
      by_cases h1 : s ∈ seen
      · simp [h1, specFirstOccGo, ih]
      · simp [h1, h2, specFirstOccGo, ih]

/-- C5: the final reporting sequence is the subsequence of the oldest-first
union listing obtained by keeping the first occurrence of each hash present
in the reverse index; it is duplicate-free and, being a sublist of the
oldest-first listing, its relative order is the global chronological order
regardless of per-branch traversal order. -/
theorem order_first_occurrence (all : List Str) (btc : List (Str × List Str)) :
    commitShas all btc
        = specFirstOcc (all.filter (fun s => !(shaToBranchesL btc s).isEmpty))
      ∧ List.Sublist (commitShas all btc) all
      ∧ (commitShas all btc).Nodup :=
  ⟨commitShasGo_spec btc all [], commitShasGo_sublist btc all [],
    (commitShasGo_nodup btc all []).1⟩

theorem mem_insertStr (x a : Str) (l : List Str) :
    x ∈ insertStr a l ↔ x = a ∨ x ∈ l := by
  induction l with
  | nil => simp [insertStr]
  | cons y ys ih =>
    simp only [insertStr]
    by_cases h : ltStr a y
    · simp [h]
    · simp [h, ih]
      tauto

theorem mem_sortStr (x : Str) (l : List Str) : x ∈ sortStr l ↔ x ∈ l := by
  induction l with
  | nil => simp [sortStr]
  | cons y ys ih => simp [sortStr, mem_insertStr, ih]

theorem mem_shaToBranches_btc (branches : List Str) (log : Str → List Str)
    (cap : Nat) (sha rb : Str) :
    rb ∈ shaToBranchesL (branchToCommits branches log cap) sha
      ↔ rb ∈ branches ∧ sha ∈ jsSliceLast (log rb) cap := by
  simp only [shaToBranchesL, branchToCommits, List.mem_map, List.mem_filter,
    List.mem_map, decide_eq_true_eq]
  constructor
  · rintro ⟨e, ⟨⟨rb2, hrb2, heq⟩, hmem⟩, hfst⟩
    subst heq
    simp only at hfst hmem
    subst hfst
    exact ⟨hrb2, hmem⟩
  · rintro ⟨hrb, hmem⟩
    exact ⟨(rb, jsSliceLast (log rb) cap), ⟨⟨rb, hrb, rfl⟩, hmem⟩, rfl⟩

/-- C1, amended: the final reporting set contains exactly one CommitRecord
per hash (the sha projection of commitMetas is duplicate-free), and a
record's branch set consists exactly of the tracked remote branches in
whose cap-truncated in-window listing the hash appears.  Provided no
branch's in-window listing exceeds the per-branch cap, this is exactly the
union of all tracked branches from which the commit is reachable in the
window; under truncation a reachable branch can be missing from the set
(see dedup_union_cex). -/
theorem dedup_unique_branch_sets (branches : List Str) (log : Str → List Str)
    (cap : Nat) (all : List Str) (title author : Str → Str) (repo : Str) :
    ((commitMetas all (branchToCommits branches log cap) title author repo).map
        CommitMeta.sha).Nodup
      ∧ (∀ m ∈ commitMetas all (branchToCommits branches log cap) title author repo,
          ∀ rb, rb ∈ m.branches ↔ rb ∈ branches ∧ m.sha ∈ jsSliceLast (log rb) cap)
      ∧ ((∀ rb ∈ branches, (log rb).length ≤ cap) →
          ∀ m ∈ commitMetas all (branchToCommits branches log cap) title author repo,
            ∀ rb, rb ∈ m.branches ↔ rb ∈ branches ∧ m.sha ∈ log rb) := by
  have hmap :
      (commitMetas all (branchToCommits branches log cap) title author repo).map
          CommitMeta.sha
        = commitShas all (branchToCommits branches log cap) := by
    simp only [commitMetas, List.map_map]
    have hid : (CommitMeta.sha ∘ fun sha : Str =>
        ({ sha := sha, title := title sha, author := author sha,
           url := commitUrl repo sha,
           branches := sortStr (shaToBranchesL (branchToCommits branches log cap) sha) }
          : CommitMeta)) = id := rfl
    rw [hid, List.map_id]
  have hbr :
      ∀ m ∈ commitMetas all (branchToCommits branches log cap) title author repo,
        ∀ rb, rb ∈ m.branches ↔ rb ∈ branches ∧ m.sha ∈ jsSliceLast (log rb) cap := by
    intro m hm rb
    rcases List.mem_map.mp hm with ⟨sha, _, heq⟩
    subst heq
    simp only
    rw [mem_sortStr, mem_shaToBranches_btc]
  refine ⟨?_, hbr, ?_⟩
  · rw [hmap]
    exact (commitShasGo_nodup (branchToCommits branches log cap) all []).1
  · intro hnt m hm rb
    rw [hbr m hm rb]
    constructor
    · rintro ⟨hrb, hmem⟩
      rw [jsSliceLast_of_le (log rb) cap (hnt rb hrb)] at hmem
      exact ⟨hrb, hmem⟩
    · rintro ⟨hrb, hmem⟩
      rw [jsSliceLast_of_le (log rb) cap (hnt rb hrb)]
      exact ⟨hrb, hmem⟩

/-- Counterexample to C1 as stated: with per-branch cap 1, branch d lists
s1, s2 and keeps only s2; commit s1 still enters the reporting set through
branch m, but its branch set omits d, a tracked branch from which it is
reachable in the window, so the branch set is not the union over all
branches from which the commit is reachable. -/
theorem dedup_union_cex :
    ∃ m ∈ commitMetas c1All (branchToCommits c1Branches c1Log 1)
        (fun _ => []) (fun _ => []) [],
      m.sha ∈ c1Log ['d'] ∧ ['d'] ∈ c1Branches ∧ ['d'] ∉ m.branches := by
  decide

/-- Witness for dedup_unique_branch_sets: in the concrete scenario with
cap 2 (no truncation), the record of s1 lists branch d exactly because s1
is reachable from d. -/
theorem dedup_unique_branch_sets_witness :
    ['d'] ∈ c1Meta.branches ↔ ['d'] ∈ c1Branches ∧ c1Meta.sha ∈ c1Log ['d'] :=
  (dedup_unique_branch_sets c1Branches c1Log 2 c1All
      (fun _ => []) (fun _ => []) []).2.2 (by decide) c1Meta (by decide) ['d']

theorem str_append_ne_nil (a b : Str) (h : a ≠ []) : a ++ b ≠ [] := by
  simp [List.append_eq_nil, h]

theorem runCommits_map_fst (gen : Nat → Except Str Str) (limit : Nat)
    (diffOf : Str → Str) :
    ∀ (metas : List CommitMeta) (k : Nat),
      ((runCommits gen limit diffOf metas k).1).map Prod.fst = metas := by
  intro metas
  induction metas with
  | nil => intro k; simp [runCommits]
  | cons m ms ih => intro k; simp [runCommits, ih]

theorem runCommits_entry_empty (gen : Nat → Except Str Str) (limit : Nat)
    (diffOf : Str → Str) (m : CommitMeta) (hd : trim (diffOf m.sha) = []) :
    ∀ (metas : List CommitMeta) (k : Nat),
      ∀ e ∈ (runCommits gen limit diffOf metas k).1,
        e.1 = m → e.2 = emptyDiffNote := by
  intro metas
  induction metas with
  | nil => intro k e he; simp [runCommits] at he
  | cons m0 ms ih =>
    intro k e he hm
    simp only [runCommits, List.mem_cons] at he
    rcases he with h | h
    · subst h
      simp only at hm
      subst hm
      simp [processCommit, hd]
    · exact ih _ e h hm

/-- C6: a commit whose extracted diff is empty or whitespace-only (empty or
fully-excluded diff) is recorded with exactly the explicit placeholder
summary, which is a non-empty string; its processing makes no generation
call (the call index is returned unchanged), the main loop records exactly
one summary per commit record, and every recorded entry of such a commit
carries the placeholder.  The model is a total function, so no error is
thrown. -/
theorem empty_diff_placeholder (gen : Nat → Except Str Str) (limit k : Nat)
    (metas : List CommitMeta) (diffOf : Str → Str) (m : CommitMeta)
    (hd : trim (diffOf m.sha) = []) :
    processCommit gen limit k (diffOf m.sha) = (emptyDiffNote, k)
      ∧ emptyDiffNote ≠ []
      ∧ ((runCommits gen limit diffOf metas k).1).map Prod.fst = metas
      ∧ ∀ e ∈ (runCommits gen limit diffOf metas k).1,
          e.1 = m → e.2 = emptyDiffNote := by
  refine ⟨by simp [processCommit, hd], by decide,
    runCommits_map_fst gen limit diffOf metas k,
    runCommits_entry_empty gen limit diffOf m hd metas k⟩

/-- Witness for empty_diff_placeholder: one commit with an empty diff under
an oracle whose every call would throw; its record is the placeholder and
the call index stays 0. -/
theorem empty_diff_placeholder_witness :
    processCommit (fun _ => Except.error []) 10 0 [] = (emptyDiffNote, 0)
      ∧ emptyDiffNote ≠ []
      ∧ ((runCommits (fun _ => Except.error []) 10 (fun _ => ([] : Str))
            [⟨['s'], [], [], [], []⟩] 0).1).map Prod.fst
          = [⟨['s'], [], [], [], []⟩] := by
  have h := empty_diff_placeholder (fun _ => Except.error []) 10 0
    [⟨['s'], [], [], [], []⟩] (fun _ => ([] : Str)) ⟨['s'], [], [], [], []⟩
    (by decide)
  exact ⟨h.1, h.2.1, h.2.2.1⟩

/-- C8: when the commit-level merge generation call of a commit throws, the
commit's final summary is exactly the chunk-level summaries joined in chunk
order, the main loop then continues with the remaining commits unchanged
(same call index as after a successful merge call), so the failure neither
aborts the run nor affects other commits. -/
theorem commit_merge_fallback (gen : Nat → Except Str Str) (limit k : Nat)
    (m : CommitMeta) (ms : List CommitMeta) (diffOf : Str → Str) (e : Str)
    (_hl : 0 < limit)
    (hp : trim (diffOf m.sha) ≠ [])
    (hfail : gen (k + (chunkBySize (splitPatchByFile (diffOf m.sha)) limit).length)
        = Except.error e) :
    runCommits gen limit diffOf (m :: ms) k
      = ((m, strIntercalate sepNN (partSummaries gen k 1
            (chunkBySize (splitPatchByFile (diffOf m.sha)) limit)))
          :: (runCommits gen limit diffOf ms
              (k + (chunkBySize (splitPatchByFile (diffOf m.sha)) limit).length + 1)).1,
         (runCommits gen limit diffOf ms
            (k + (chunkBySize (splitPatchByFile (diffOf m.sha)) limit).length + 1)).2) := by
  simp [runCommits, processCommit, hp, hfail]

/-- Witness for commit_merge_fallback: a one-chunk commit whose chunk call
succeeds with summary S and whose merge call throws; the commit summary is
the joined chunk summaries. -/
theorem commit_merge_fallback_witness :
    runCommits (fun n => if n = 0 then Except.ok ['S'] else Except.error ['E'])
        10 (fun _ => ['x']) [⟨['s'], [], [], [], []⟩] 0
      = ((⟨['s'], [], [], [], []⟩,
            strIntercalate sepNN (partSummaries
              (fun n => if n = 0 then Except.ok ['S'] else Except.error ['E']) 0 1
              (chunkBySize (splitPatchByFile ['x']) 10)))
          :: (runCommits (fun n => if n = 0 then Except.ok ['S'] else Except.error ['E'])
              10 (fun _ => ['x']) []
              (0 + (chunkBySize (splitPatchByFile ['x']) 10).length + 1)).1,
         (runCommits (fun n => if n = 0 then Except.ok ['S'] else Except.error ['E'])
            10 (fun _ => ['x']) []
            (0 + (chunkBySize (splitPatchByFile ['x']) 10).length + 1)).2) :=
  commit_merge_fallback (fun n => if n = 0 then Except.ok ['S'] else Except.error ['E'])
    10 0 ⟨['s'], [], [], [], []⟩ [] (fun _ => ['x']) ['E']
    (by decide) (by decide) (by rfl)

/-- C10: every chunk-level summary accumulated for a commit is non-empty: a
thrown generation call is recorded as the failure placeholder, an empty
successful response as the empty-result placeholder, and a non-empty
response as itself. -/
theorem chunk_summaries_nonempty (gen : Nat → Except Str Str) (k i : Nat)
    (chunks : List Str) : ∀ s ∈ partSummaries gen k i chunks, s ≠ [] := by
  induction chunks generalizing k i with
  | nil => simp [partSummaries]
  | cons c cs ih =>
    intro s hs
    simp only [partSummaries, List.mem_cons] at hs
    rcases hs with h | h
    · subst h
      cases hg : gen k with
      | ok v =>
        simp only [hg]
        by_cases hv : v = []
        · simp only [hv, if_true]
          exact str_append_ne_nil _ _ (str_append_ne_nil _ _ (by decide))
        · simp only [hv, if_false]
          exact hv
      | error e2 =>
        simp only [hg, failPartNote]
        exact str_append_ne_nil _ _ (str_append_ne_nil _ _
          (str_append_ne_nil _ _ (str_append_ne_nil _ _ (by decide))))
    · exact ih _ _ s h

/-- Witness for chunk_summaries_nonempty: a single chunk whose call throws
is recorded as the (non-empty) failure placeholder. -/
theorem chunk_summaries_nonempty_witness :
    failPartNote 1 [] ∈ partSummaries (fun _ => Except.error []) 0 1 [['x']]
      ∧ failPartNote 1 [] ≠ [] :=
  ⟨by decide, chunk_summaries_nonempty (fun _ => Except.error []) 0 1 [['x']]
    (failPartNote 1 []) (by decide)⟩

theorem strContains_trans (a b c : Str)
    (h1 : strContains a b) (h2 : strContains b c) : strContains a c := by
  rcases h1 with ⟨l1, r1, h1⟩
  rcases h2 with ⟨l2, r2, h2⟩
  exact ⟨l1 ++ l2, r2 ++ r1, by simp [h1, h2, List.append_assoc]⟩

theorem strContains_intercalate (sep : Str) (l : List Str) (x : Str)
    (h : x ∈ l) : strContains (strIntercalate sep l) x := by
  induction l with
  | nil => simp at h
  | cons y ys ih =>
    cases ys with
    | nil =>
      simp only [List.mem_singleton] at h
      subst h
      exact ⟨[], [], by simp [strIntercalate]⟩
    | cons z zs =>
      rcases List.mem_cons.mp h with h | h
      · subst h
        exact ⟨[], sep ++ strIntercalate sep (z :: zs),
          by simp [strIntercalate, List.append_assoc]⟩
      · rcases ih h with ⟨l2, r2, h2⟩
        exact ⟨y ++ sep ++ l2, r2, by simp [strIntercalate, h2, List.append_assoc]⟩

/-- C9: a window with zero qualifying commits across all tracked branches
(empty reporting set after the filter) terminates the run successfully
(exit code 0) before any report is produced, and the notification
collaborator is never invoked. -/
theorem empty_window_noop (env : GitEnv) (cfg : Config)
    (gen : Nat → Except Str Str) (h : pipeShas env cfg = []) :
    pipeline env cfg gen = { exitCode := 0, notification := none } := by
  simp [pipeline, h]

/-- Witness for empty_window_noop: an environment with no branches and an
empty union listing exits with code 0 and no notification. -/
theorem empty_window_noop_witness :
    pipeline
        { branches := [], log := fun _ => [], allShas := [],
          title := fun _ => [], author := fun _ => [], diff := fun _ => [] }
        { cap := 200, limit := 80000, repo := [] }
        (fun _ => Except.error [])
      = { exitCode := 0, notification := none } :=
  empty_window_noop _ _ _ (by decide)

/-- C7: when the daily-merge generation call throws, the run still produces
a message and hands it to the notification collaborator; the message is
non-empty, carries the visible failure notice, and contains every
per-commit summary. -/
theorem daily_fallback_degrades (env : GitEnv) (cfg : Config)
    (gen : Nat → Except Str Str) (e : Str)
    (_hl : 0 < cfg.limit)
    (hne : pipeShas env cfg ≠ [])
    (hfail : gen (pipeDailyIdx env cfg gen) = Except.error e) :
    pipeline env cfg gen
        = { exitCode := 0, notification := some (pipeMsg env cfg gen) }
      ∧ pipeMsg env cfg gen ≠ []
      ∧ strContains (pipeMsg env cfg gen) dailyFailMark
      ∧ ∀ it ∈ pipePCF env cfg gen, strContains (pipeMsg env cfg gen) it.2 := by
  have hmsg : pipeMsg env cfg gen
      = larkKeyword ++ ['\n', '\n']
          ++ (dailyFailMark ++ ['\n', '\n']
              ++ strIntercalate dailySepStr ((pipePCF env cfg gen).map fallbackItem)) := by
    simp [pipeMsg, finalMessage, dailyText, hfail]
  refine ⟨by simp [pipeline, hne], ?_, ?_, ?_⟩
  · rw [hmsg]
    exact str_append_ne_nil _ _ (str_append_ne_nil _ _ (by decide))
  · rw [hmsg]
    exact ⟨larkKeyword ++ ['\n', '\n'],
      ['\n', '\n'] ++ strIntercalate dailySepStr ((pipePCF env cfg gen).map fallbackItem),
      by simp [List.append_assoc]⟩
  · intro it hit
    rw [hmsg]
    have h1 : strContains (fallbackItem it) it.2 := by
      refine ⟨"[".toList ++ it.1.sha.take 7 ++ "] ".toList ++ it.1.title
        ++ " — ".toList ++ strIntercalate (", ".toList) it.1.branches ++ ['\n'], [], ?_⟩
      simp [fallbackItem, List.append_assoc]
    have h2 : strContains
        (strIntercalate dailySepStr ((pipePCF env cfg gen).map fallbackItem))
        (fallbackItem it) :=
      strContains_intercalate _ _ _ (List.mem_map_of_mem _ hit)
    rcases strContains_trans _ _ _ h2 h1 with ⟨l2, r2, h3⟩
    exact ⟨larkKeyword ++ ['\n', '\n'] ++ (dailyFailMark ++ ['\n', '\n']) ++ l2, r2,
      by simp [h3, List.append_assoc]⟩

/-- Witness for daily_fallback_degrades: one empty-diff commit and an
always-throwing oracle; the run still delivers a message carrying the
failure notice. -/
theorem daily_fallback_degrades_witness :
    pipeline c7Env c7Cfg c7Gen
        = { exitCode := 0, notification := some (pipeMsg c7Env c7Cfg c7Gen) }
      ∧ strContains (pipeMsg c7Env c7Cfg c7Gen) dailyFailMark := by
  have h := daily_fallback_degrades c7Env c7Cfg c7Gen ['e']
    (by decide) (by decide) (by rfl)
  exact ⟨h.1, h.2.2.1⟩

end DailySummary
